import Mathlib

/-!
# Verification of the link-prediction simulation pipeline

Shallow embedding of the link-prediction / rewiring loop from the course
notebook (`add_negative_examples`, `compute_features`, `louvain_communities`
and the `LinkPredictionSimulator` class), together with proofs of the
specified properties.

Conventions of the embedding:

* node identifiers are natural numbers (the data uses integer ids);
* a pandas data frame of edges is a `List (ℕ × ℕ)` of `(source, target)`
  rows, in row order;
* real-valued quantities (classifier scores, PageRank, modularity, the
  Gini index) are modelled with exact rationals `ℚ`;
* external library capabilities (PageRank, the Louvain community routine,
  the fitted logistic-regression scoring function, networkx modularity)
  are parameters of the development — the notebook treats them as black
  boxes;
* the one random primitive, `DataFrame.sample`, is modelled by passing the
  retained rows explicitly; its contract (a random subset of the rows, of
  the requested size, in some order) becomes hypotheses of the theorems.
-/

namespace IntroNetworks

/-! ### Generic helpers: `itertools.product`, `numpy.unique`, node lists -/

/-- `itertools.product(l₁, l₂)`: all ordered pairs in row-major order
(the order `pd.DataFrame(product(...))` receives its rows in). -/
def itProduct (l₁ l₂ : List ℕ) : List (ℕ × ℕ) :=
  l₁.flatMap (fun a => l₂.map (fun b => (a, b)))

/-- The candidate pair table
`pairs = pd.DataFrame(product(node_list, node_list)); pairs = pairs[pairs.source < pairs.target]`
used both in `add_negative_examples` and in `get_predicted_edges`. -/
def candidatePairs (nodes : List ℕ) : List (ℕ × ℕ) :=
  (itProduct nodes nodes).filter (fun p => p.1 < p.2)

/-- First-occurrence deduplication with an accumulator of already-seen
elements; `firstDedup` keeps the first occurrence of each element, which is
the node insertion order used by `networkx` graphs. -/
def firstDedupAux (seen : List ℕ) : List ℕ → List ℕ
  | [] => []
  | x :: t => if x ∈ seen then firstDedupAux seen t else x :: firstDedupAux (x :: seen) t

/-- First-occurrence deduplication of a list. -/
def firstDedup (l : List ℕ) : List ℕ := firstDedupAux [] l

/-- `numpy.unique`: the distinct elements, sorted ascending. -/
def npUnique (l : List ℕ) : List ℕ := List.insertionSort (· ≤ ·) (firstDedup l)

/-! ### The networkx graph model -/

/-- An undirected simple graph as built by `networkx`: a node list (in
insertion order) and a set of edges, each stored as a normalized pair. -/
structure NXGraph where
  nodes : List ℕ
  edges : Finset (ℕ × ℕ)
deriving DecidableEq

/-- Normalize an undirected edge so the smaller endpoint comes first. -/
def normEdge (p : ℕ × ℕ) : ℕ × ℕ := if p.1 ≤ p.2 then p else (p.2, p.1)

/-- `nx.from_pandas_edgelist(df)`: nodes in first-appearance order, edges
as an (unordered, deduplicated) set. -/
def from_pandas_edgelist (df : List (ℕ × ℕ)) : NXGraph :=
  ⟨firstDedup (df.flatMap (fun p => [p.1, p.2])), (df.map normEdge).toFinset⟩

/-- `G.add_nodes_from(l)`: append the nodes of `l` not already present
(deduplicated, preserving order). -/
def NXGraph.addNodesFrom (G : NXGraph) (l : List ℕ) : NXGraph :=
  ⟨G.nodes ++ (firstDedup l).filter (fun v => ¬ v ∈ G.nodes), G.edges⟩

/-- `G.degree(v)`: number of incident edges, with a self-loop counting
twice (networkx convention). -/
def NXGraph.degree (G : NXGraph) (v : ℕ) : ℕ :=
  (G.edges.filter (fun e => e.1 = v ∨ e.2 = v)).card +
    (G.edges.filter (fun e => e.1 = v ∧ e.2 = v)).card

/-- The neighbor set of a node. -/
def NXGraph.neighbors (G : NXGraph) (v : ℕ) : Finset ℕ :=
  ((G.edges.filter (fun e => e.1 = v)).image Prod.snd) ∪
    ((G.edges.filter (fun e => e.2 = v)).image Prod.fst)

/-! ### The degree Gini index (`LinkPredictionSimulator.degree_gini`) -/

/-- The degree sequence of the graph, as rationals, in node order
(`degs = np.array([self.G.degree[i] for i in self.G.nodes])`). -/
def NXGraph.degSeq (G : NXGraph) : List ℚ :=
  G.nodes.map (fun i => (G.degree i : ℚ))

/-- `np.abs(np.subtract.outer(degs, degs)).mean()` scaled by `n * n`:
the sum of absolute differences over all ordered pairs of positions. -/
def pairAbsSum (l : List ℚ) : ℚ :=
  (l.map (fun a => (l.map (fun b => |a - b|)).sum)).sum

/-- `LinkPredictionSimulator.degree_gini`:
`mad = np.abs(np.subtract.outer(degs, degs)).mean(); rmad = mad / np.mean(degs); g = 0.5 * rmad`. -/
def NXGraph.degree_gini (G : NXGraph) : ℚ :=
  let degs : List ℚ := G.degSeq
  let n : ℚ := (degs.length : ℚ)
  let mad : ℚ := pairAbsSum degs / (n * n)
  let rmad : ℚ := mad / (degs.sum / n)
  (1 / 2) * rmad

/-! ### The Feature-and-Label Builder (`add_negative_examples`) -/

/-- One row of the labeled pair table: `(source, target, link)`.
(The extra columns a data frame may carry play no role downstream.) -/
structure LabeledRow where
  source : ℕ
  target : ℕ
  link : Bool
deriving DecidableEq

/-- `pd.merge(negative, df_, on = ["source", "target"], how = "left")`
followed by `merged_df["link"] = merged_df["link"] == 1`: each left row is
paired with every matching right row (keeping `link = 1`, i.e. `true`), or
kept once with a missing — hence `false` — label when there is no match. -/
def leftMergeLink (negative : List (ℕ × ℕ)) (df : List (ℕ × ℕ)) : List LabeledRow :=
  negative.flatMap (fun p =>
    let ms := df.filter (fun q => q = p)
    if ms.isEmpty then [⟨p.1, p.2, false⟩] else ms.map (fun _ => ⟨p.1, p.2, true⟩))

/-- `add_negative_examples(df)`: the full candidate-pair table over the
nodes appearing in `df`, left-merged with the observed edges, so that
`link` distinguishes positive from negative examples. -/
def add_negative_examples (df : List (ℕ × ℕ)) : List LabeledRow :=
  let node_list := npUnique (df.map Prod.fst ++ df.map Prod.snd)
  leftMergeLink (candidatePairs node_list) df

/-! ### Features and the simulator -/

/-- The per-pair features computed by `compute_features`.  The notebook
stores the two community labels one-hot encoded (one indicator column per
observed label combination); the pair of labels carries the same
information, so we keep the labels themselves. -/
structure FeatureVec where
  deg_source : ℕ
  deg_target : ℕ
  pr_source : ℚ
  pr_target : ℚ
  common_neighbors : ℕ
  comm_source : ℕ
  comm_target : ℕ
deriving DecidableEq

section Pipeline

variable (pr : NXGraph → ℕ → ℚ)
variable (nxLouvain : NXGraph → List (List ℕ))
variable (oracle : List (FeatureVec × Bool) → FeatureVec → ℚ)
variable (nxModularity : NXGraph → List (List ℕ) → ℚ)

/-- `louvain_communities(G, return_partition = True)` from the notebook:
the external `nx.community.louvain_communities` call is the parameter
`nxLouvain`; the wrapper turns the list of communities into a node-to-label
map (the label of a node is the index of the community containing it). -/
def louvain_communities (G : NXGraph) : (ℕ → ℕ) × List (List ℕ) :=
  let comms := nxLouvain G
  (fun i => ((List.range comms.length).filter (fun l => i ∈ comms.getD l [])).headD 0, comms)

/-- `compute_features(df, G, comm_dict)` restricted to one row: degree,
PageRank (external, the parameter `pr`), community labels and
common-neighbor count of the two endpoints, all against the reference
graph `G` and the partition `comm_dict`. -/
def compute_features (G : NXGraph) (comm_dict : ℕ → ℕ) (p : ℕ × ℕ) : FeatureVec :=
  { deg_source := G.degree p.1
    deg_target := G.degree p.2
    pr_source := pr G p.1
    pr_target := pr G p.2
    common_neighbors := (G.neighbors p.1 ∩ G.neighbors p.2).card
    comm_source := comm_dict p.1
    comm_target := comm_dict p.2 }

/-- The state held by a `LinkPredictionSimulator` instance.  `train_df` and
`model` are created by `prep_data` / `train_model` during the first step;
before that they hold inert placeholder values. -/
structure SimState where
  edge_df : List (ℕ × ℕ)
  G : NXGraph
  node_list : List ℕ
  comm_dict : ℕ → ℕ
  comms : List (List ℕ)
  train_df : List (FeatureVec × Bool)
  model : FeatureVec → ℚ

/-- `LinkPredictionSimulator.__init__(edge_df)` (the notebook passes no
keyword arguments, so `self.kwargs` is empty). -/
def LPS_init (edge_df : List (ℕ × ℕ)) : SimState :=
  let G := from_pandas_edgelist edge_df
  let lc := louvain_communities nxLouvain G
  { edge_df := edge_df
    G := G
    node_list := G.nodes
    comm_dict := lc.1
    comms := lc.2
    train_df := []
    model := fun _ => 0 }

/-- `prep_data`: add negative examples to the current edge table and
compute features with the *stored* community labels; no graph is passed,
so `compute_features` builds its reference graph from the positive rows. -/
def prep_data (s : SimState) : SimState :=
  let rows := add_negative_examples s.edge_df
  let Gref := from_pandas_edgelist ((rows.filter (fun row => row.link)).map
    (fun row => (row.source, row.target)))
  { s with train_df :=
      rows.map (fun row => (compute_features pr Gref s.comm_dict (row.source, row.target), row.link)) }

/-- `y.all() or (~y).all()`: the label column contains at most one class. -/
def constantLabels (rows : List (FeatureVec × Bool)) : Bool :=
  match rows.map Prod.snd with
  | [] => true
  | b :: t => t.all (fun c => c = b)

/-- The error taxonomy of the fitting stage. -/
inductive FitError where
  | DegenerateLabelSet
deriving DecidableEq

/-- Modelled from the spec: `sklearn.linear_model.LogisticRegression.fit`,
an external library routine that is *not* part of this repository —
"fitting is reported as fatal if the label column is constant (only one
class present)".  We model the fit as failing with `DegenerateLabelSet`
exactly when the label column holds at most one class (which includes the
empty table), and otherwise returning the scoring function produced by the
abstract fitting oracle. -/
def sk_fit (rows : List (FeatureVec × Bool)) : Except FitError (FeatureVec → ℚ) :=
  if constantLabels rows then .error .DegenerateLabelSet else .ok (oracle rows)

/-- `train_model`: fit the classifier on the prepared table and store it.
The fit error (if any) propagates — the method has no handler. -/
def train_model (s : SimState) : Except FitError SimState :=
  (sk_fit oracle s.train_df).map (fun f => { s with model := f })

/-- The score `self.model.predict_proba(...)[:, 1]` assigns to one pair:
the stored classifier applied to the pair's features. -/
def edgeScore (model : FeatureVec → ℚ) (G : NXGraph) (comm_dict : ℕ → ℕ)
    (p : ℕ × ℕ) : ℚ :=
  model (compute_features pr G comm_dict p)

/-- `get_predicted_edges(m_replace)`: score every candidate pair over the
fixed node universe (features against the current graph and the stored
partition), drop the pairs already present in the current edge table, sort
by descending score and keep the first `m_replace` rows.  `pandas.head`
silently returns fewer rows when the frame is shorter than requested. -/
def get_predicted_edges (s : SimState) (m_replace : ℕ) : List (ℕ × ℕ) :=
  let pairs := candidatePairs s.node_list
  let scored := pairs.map (fun p => (p, edgeScore pr s.model s.G s.comm_dict p))
  let remaining := scored.filter (fun q => ¬ q.1 ∈ s.edge_df)
  let sorted := List.insertionSort (fun a b => b.2 ≤ a.2) remaining
  (sorted.take m_replace).map Prod.fst

/-- `update_edges(m_replace)`: `self.edge_df = self.edge_df.sample(len(self.edge_df) - m_replace)`
removes `m_replace` rows chosen uniformly at random without replacement;
the surviving rows are the explicit argument `kept` (the randomness made
explicit), whose contract — a subpermutation of the rows, of the stated
length — appears as hypotheses of the theorems.  The predicted edges are
then computed against the post-removal table and appended. -/
def update_edges (s : SimState) (m_replace : ℕ) (kept : List (ℕ × ℕ)) : SimState :=
  let s1 : SimState := { s with edge_df := kept }
  let new_edges := get_predicted_edges pr s1 m_replace
  { s1 with edge_df := s1.edge_df ++ new_edges }

/-- `step(m_replace, train)`: prepare data, train, rewire, rebuild the
graph from the new edge table and re-add the full node universe.  The
`train` argument is accepted but never read by the body. -/
def step (s : SimState) (m_replace : ℕ) (kept : List (ℕ × ℕ)) (train : Bool) :
    Except FitError SimState :=
  let s1 := prep_data pr s
  (train_model oracle s1).map (fun s2 =>
    let s3 := update_edges pr s2 m_replace kept
    { s3 with G := (from_pandas_edgelist s3.edge_df).addNodesFrom s3.node_list })

/-- The state produced by a *successful* `step` (the value inside `.ok`). -/
def stepResult (s : SimState) (m_replace : ℕ) (kept : List (ℕ × ℕ)) : SimState :=
  let s1 := prep_data pr s
  let s2 : SimState := { s1 with model := oracle s1.train_df }
  let s3 := update_edges pr s2 m_replace kept
  { s3 with G := (from_pandas_edgelist s3.edge_df).addNodesFrom s3.node_list }

/-- The state after `prep_data`; `train_model` then stores the fitted
classifier (this is the state `update_edges` runs in during a successful
step). -/
def postTrain (s : SimState) : SimState :=
  let s1 := prep_data pr s
  { s1 with model := oracle s1.train_df }

/-- The rows a successful `step` appends: the predicted edges computed in
the post-training state against the post-removal edge table `kept`. -/
def addedEdges (s : SimState) (m_replace : ℕ) (kept : List (ℕ × ℕ)) : List (ℕ × ℕ) :=
  get_predicted_edges pr { postTrain pr oracle s with edge_df := kept } m_replace

/-- A sequence of `step` calls, each move carrying its removal count, its
retained rows (the explicit randomness) and its `train` flag. -/
def runSteps (s : SimState) : List (ℕ × List (ℕ × ℕ) × Bool) → Except FitError SimState
  | [] => .ok s
  | (r, kept, b) :: rest => (step pr oracle s r kept b).bind (fun s' => runSteps s' rest)

/-- `modularity()`: the external `nx.algorithms.community.modularity`
(the parameter `nxModularity`) applied to the current graph and the
*stored* communities. -/
def modularity (s : SimState) : ℚ := nxModularity s.G s.comms

/-- The number of candidate non-edge pairs over a node universe, relative
to an edge table: the pairs `source < target` not present in the table. -/
def availableNonEdges (nodes : List ℕ) (edges : List (ℕ × ℕ)) : ℕ :=
  ((candidatePairs nodes).filter (fun p => ¬ p ∈ edges)).length

end Pipeline

/-! ### Concrete instantiations of the external parameters (used to
exercise the theorems on concrete inputs) -/

/-- A trivial PageRank: every node scores `0`. -/
def prZero : NXGraph → ℕ → ℚ := fun _ _ => 0

/-- A trivial community routine: no communities. -/
def louvainNil : NXGraph → List (List ℕ) := fun _ => []

/-- A trivial fitting oracle: the constant-zero scoring function. -/
def oracleZero : List (FeatureVec × Bool) → FeatureVec → ℚ := fun _ _ => 0

/-- A trivial modularity: always `0`. -/
def modZero : NXGraph → List (List ℕ) → ℚ := fun _ _ => 0

/-- A small edge table: two disjoint edges over four nodes. -/
def wDf : List (ℕ × ℕ) := [(1, 2), (3, 4)]

/-- The simulator built on `wDf`. -/
def wState : SimState := LPS_init louvainNil wDf

/-- An edge table whose row count exceeds the number of distinct pairs
over its nodes (the pair `(1,2)` is observed four times): with it the
removal count can exceed the number of available non-edges. -/
def cDf : List (ℕ × ℕ) := [(1, 2), (1, 2), (1, 2), (1, 2), (1, 3), (1, 4), (2, 3)]

/-- The simulator built on `cDf`. -/
def cState : SimState := LPS_init louvainNil cDf

/-- A one-edge graph, for exercising the Gini index. -/
def wGini : NXGraph := from_pandas_edgelist [(1, 2)]

/-- A state whose prepared label column is `false` on every row. -/
def wAllFalse : SimState :=
  { edge_df := []
    G := ⟨[], ∅⟩
    node_list := []
    comm_dict := fun _ => 0
    comms := []
    train_df := [(⟨0, 0, 0, 0, 0, 0, 0⟩, false), (⟨1, 1, 0, 0, 0, 0, 0⟩, false)]
    model := fun _ => 0 }

/-! ### Basic lemmas about the helpers -/

theorem mem_firstDedupAux {x : ℕ} : ∀ (seen l : List ℕ),
    x ∈ firstDedupAux seen l ↔ x ∈ l ∧ x ∉ seen := by
  intro seen l
  induction l generalizing seen with
  | nil => simp [firstDedupAux]
  | cons y t ih =>
    simp only [firstDedupAux]
    split_ifs with hy
    · rw [ih]
      simp only [List.mem_cons]
      constructor
      · rintro ⟨hx, hs⟩; exact ⟨Or.inr hx, hs⟩
      · rintro ⟨hx | hx, hs⟩
        · exact absurd (hx ▸ hy) hs
        · exact ⟨hx, hs⟩
    · simp only [List.mem_cons, ih, List.mem_cons, not_or]
      constructor
      · rintro (hx | ⟨hx, hs1, hs2⟩)
        · exact ⟨Or.inl hx, hx ▸ hy⟩
        · exact ⟨Or.inr hx, hs2⟩
      · rintro ⟨hx | hx, hs⟩
        · exact Or.inl hx
        · by_cases hxy : x = y
          · exact Or.inl hxy
          · exact Or.inr ⟨hx, hxy, hs⟩

theorem nodup_firstDedupAux : ∀ (seen l : List ℕ), (firstDedupAux seen l).Nodup := by
  intro seen l
  induction l generalizing seen with
  | nil => exact List.nodup_nil
  | cons y t ih =>
    simp only [firstDedupAux]
    split_ifs with hy
    · exact ih seen
    · rw [List.nodup_cons]
      refine ⟨fun hmem => ?_, ih (y :: seen)⟩
      rcases (mem_firstDedupAux _ _).1 hmem with ⟨-, hns⟩
      exact hns (List.mem_cons_self y seen)

theorem mem_firstDedup {x : ℕ} {l : List ℕ} : x ∈ firstDedup l ↔ x ∈ l := by
  rw [firstDedup, mem_firstDedupAux]
  simp

theorem nodup_firstDedup (l : List ℕ) : (firstDedup l).Nodup :=
  nodup_firstDedupAux [] l

theorem mem_npUnique {x : ℕ} {l : List ℕ} : x ∈ npUnique l ↔ x ∈ l := by
  rw [npUnique, List.mem_insertionSort, mem_firstDedup]

theorem nodup_npUnique (l : List ℕ) : (npUnique l).Nodup :=
  (List.perm_insertionSort _ _).nodup_iff.2 (nodup_firstDedup l)

theorem sorted_lt_npUnique (l : List ℕ) : (npUnique l).Sorted (· < ·) :=
  (List.sorted_insertionSort _ _).lt_of_le (nodup_npUnique l)

theorem length_firstDedup_eq_card (l : List ℕ) : (firstDedup l).length = l.toFinset.card := by
  rw [List.card_toFinset]
  exact ((List.perm_ext_iff_of_nodup (nodup_firstDedup l) l.nodup_dedup).2
    (fun a => by rw [mem_firstDedup, List.mem_dedup])).length_eq

theorem length_npUnique (l : List ℕ) : (npUnique l).length = l.toFinset.card := by
  rw [npUnique, (List.perm_insertionSort _ _).length_eq]
  exact length_firstDedup_eq_card l

theorem mem_itProduct {l₁ l₂ : List ℕ} {p : ℕ × ℕ} :
    p ∈ itProduct l₁ l₂ ↔ p.1 ∈ l₁ ∧ p.2 ∈ l₂ := by
  obtain ⟨a, b⟩ := p
  simp only [itProduct, List.mem_flatMap, List.mem_map, Prod.mk.injEq]
  constructor
  · rintro ⟨u, hu, v, hv, rfl, rfl⟩; exact ⟨hu, hv⟩
  · rintro ⟨ha, hb⟩; exact ⟨a, ha, b, hb, rfl, rfl⟩

theorem mem_candidatePairs {nodes : List ℕ} {u v : ℕ} :
    (u, v) ∈ candidatePairs nodes ↔ u ∈ nodes ∧ v ∈ nodes ∧ u < v := by
  simp only [candidatePairs, List.mem_filter, mem_itProduct, decide_eq_true_eq, and_assoc]

theorem itProduct_eq_product (l₁ l₂ : List ℕ) : itProduct l₁ l₂ = l₁ ×ˢ l₂ := rfl

theorem nodup_candidatePairs {nodes : List ℕ} (h : nodes.Nodup) :
    (candidatePairs nodes).Nodup := by
  refine List.Nodup.filter _ ?_
  rw [itProduct_eq_product]
  exact h.product h

theorem length_filter_pairMap (a : ℕ) (l : List ℕ) :
    ((l.map (fun b => (a, b))).filter (fun p => p.1 < p.2)).length
      = (l.filter (fun b => a < b)).length := by
  induction l with
  | nil => rfl
  | cons b t ih => by_cases h : a < b <;> simp [h, ih]

theorem length_filter_itProduct_cons (x : ℕ) : ∀ (t l : List ℕ), (∀ a ∈ t, ¬ a < x) →
    ((itProduct t (x :: l)).filter (fun p => p.1 < p.2)).length
      = ((itProduct t l).filter (fun p => p.1 < p.2)).length := by
  intro t
  induction t with
  | nil => intro l _; rfl
  | cons a t' ih =>
    intro l hx
    have hax : decide (a < x) = false := decide_eq_false (hx a (List.mem_cons_self a t'))
    have hrest := ih l (fun b hb => hx b (List.mem_cons_of_mem a hb))
    simp only [itProduct] at hrest ⊢
    simp only [List.flatMap_cons, List.map_cons, List.filter_append, List.length_append,
      List.filter_cons, hax, Bool.false_eq_true, if_false] at hrest ⊢
    omega

theorem length_candidatePairs_sorted : ∀ {l : List ℕ}, l.Sorted (· < ·) →
    (candidatePairs l).length = l.length.choose 2 := by
  intro l
  induction l with
  | nil => intro _; rfl
  | cons x t ih =>
    intro hs
    rcases List.sorted_cons.1 hs with ⟨hx, ht⟩
    have hasym : ∀ a ∈ t, ¬ a < x := fun a ha => Nat.lt_asymm (hx a ha)
    simp only [candidatePairs, itProduct, List.flatMap_cons, List.filter_append,
      List.length_append]
    have h1 : (((x :: t).map (fun b => (x, b))).filter (fun p => p.1 < p.2)).length
        = t.length := by
      rw [length_filter_pairMap]
      simp only [List.filter_cons, decide_eq_true_eq, Nat.lt_irrefl, if_false]
      rw [List.filter_eq_self.2 (fun b hb => decide_eq_true (hx b hb))]
    have h2 : ((t.flatMap (fun a => (x :: t).map (fun b => (a, b)))).filter
        (fun p => p.1 < p.2)).length = (candidatePairs t).length := by
      have := length_filter_itProduct_cons x t t hasym
      simpa [itProduct, candidatePairs] using this
    have hc : (t.length + 1).choose 2 = t.length + t.length.choose 2 := by
      rw [Nat.choose_succ_succ, Nat.choose_one_right]
    rw [h1, h2, ih ht, List.length_cons, hc]

/-! ### Lemmas for the degree Gini index -/

theorem sum_map_abs_sub_le (x : ℚ) (hx : 0 ≤ x) :
    ∀ (t : List ℚ), (∀ y ∈ t, 0 ≤ y) →
    (t.map (fun b => |x - b|)).sum ≤ (t.length : ℚ) * x + t.sum := by
  intro t
  induction t with
  | nil => intro _; simp
  | cons b t' ih =>
    intro ht
    have hb : 0 ≤ b := ht b (List.mem_cons_self b t')
    have h2 := ih (fun y hy => ht y (List.mem_cons_of_mem b hy))
    have h1 : |x - b| ≤ x + b := by
      rw [abs_sub_le_iff]
      constructor <;> linarith
    simp only [List.map_cons, List.sum_cons, List.length_cons]
    push_cast
    linarith

theorem pairAbsSum_nonneg (l : List ℚ) : 0 ≤ pairAbsSum l := by
  refine List.sum_nonneg ?_
  intro a ha
  rcases List.mem_map.1 ha with ⟨b, -, rfl⟩
  refine List.sum_nonneg ?_
  intro c hc
  rcases List.mem_map.1 hc with ⟨d, -, rfl⟩
  exact abs_nonneg _

theorem sum_map_add_split (f g : ℚ → ℚ) : ∀ (l : List ℚ),
    (l.map (fun a => f a + g a)).sum = (l.map f).sum + (l.map g).sum := by
  intro l
  induction l with
  | nil => simp
  | cons c t ih =>
    simp only [List.map_cons, List.sum_cons, ih]
    ring

theorem pairAbsSum_le (l : List ℚ) (hl : ∀ y ∈ l, 0 ≤ y) :
    pairAbsSum l ≤ 2 * (l.length : ℚ) * l.sum - 2 * l.sum := by
  induction l with
  | nil => simp [pairAbsSum]
  | cons x t ih =>
    have hx : 0 ≤ x := hl x (List.mem_cons_self x t)
    have ht : ∀ y ∈ t, 0 ≤ y := fun y hy => hl y (List.mem_cons_of_mem x hy)
    have hT : 0 ≤ t.sum := List.sum_nonneg ht
    have hA : (t.map (fun b => |x - b|)).sum ≤ (t.length : ℚ) * x + t.sum :=
      sum_map_abs_sub_le x hx t ht
    have hP := ih ht
    have hBeq : (t.map (fun a => |a - x|)).sum = (t.map (fun b => |x - b|)).sum := by
      refine congrArg List.sum (List.map_congr_left ?_)
      intro a _
      exact abs_sub_comm a x
    simp only [pairAbsSum, List.map_cons, List.sum_cons, List.length_cons] at hP ⊢
    rw [sum_map_add_split (fun a => |a - x|) (fun a => (t.map (fun b => |a - b|)).sum) t,
      hBeq, sub_self, abs_zero, zero_add]
    push_cast
    nlinarith [hA, hP]

/-- Claim C8: on a snapshot whose degree sequence has positive mean,
`degree_gini` computes one half of the mean absolute pairwise degree
difference divided by the mean degree, and the value lies in `[0, 1)`. -/
theorem claim_C8 (G : NXGraph) (hne : G.nodes ≠ [])
    (hpos : 0 < (G.nodes.map (fun i => G.degree i)).sum) :
    G.degree_gini
        = (1 / 2) * ((pairAbsSum G.degSeq / ((G.degSeq.length : ℚ) * (G.degSeq.length : ℚ)))
          / (G.degSeq.sum / (G.degSeq.length : ℚ)))
      ∧ 0 ≤ G.degree_gini ∧ G.degree_gini < 1 := by
  have hform : G.degree_gini
      = (1 / 2) * ((pairAbsSum G.degSeq / ((G.degSeq.length : ℚ) * (G.degSeq.length : ℚ)))
        / (G.degSeq.sum / (G.degSeq.length : ℚ))) := rfl
  have hlen : G.degSeq.length = G.nodes.length := by
    simp [NXGraph.degSeq]
  have hLpos : 0 < (G.degSeq.length : ℚ) := by
    have : G.nodes.length ≠ 0 := fun h => hne (List.length_eq_zero.1 h)
    rw [hlen]
    exact_mod_cast Nat.pos_of_ne_zero this
  have hTcast : G.degSeq.sum = ((G.nodes.map (fun i => G.degree i)).sum : ℚ) := by
    rw [NXGraph.degSeq, Nat.cast_list_sum, List.map_map]
    rfl
  have hTpos : 0 < G.degSeq.sum := by
    rw [hTcast]
    exact_mod_cast hpos
  have hnn : ∀ y ∈ G.degSeq, 0 ≤ y := by
    intro y hy
    rcases List.mem_map.1 hy with ⟨i, -, rfl⟩
    exact Nat.cast_nonneg _
  have hS0 : 0 ≤ pairAbsSum G.degSeq := pairAbsSum_nonneg _
  have hSle : pairAbsSum G.degSeq
      ≤ 2 * (G.degSeq.length : ℚ) * G.degSeq.sum - 2 * G.degSeq.sum :=
    pairAbsSum_le _ hnn
  have hgini : G.degree_gini
      = pairAbsSum G.degSeq / (2 * (G.degSeq.length : ℚ) * G.degSeq.sum) := by
    rw [hform]
    field_simp
    ring
  refine ⟨hform, ?_, ?_⟩
  · rw [hgini]
    positivity
  · rw [hgini]
    rw [div_lt_one (by positivity)]
    linarith

/-- Witness for C8 at the one-edge graph `wGini`. -/
theorem claim_C8_witness :
    (wGini.nodes ≠ [] ∧ 0 < (wGini.nodes.map (fun i => wGini.degree i)).sum)
      ∧ 0 ≤ wGini.degree_gini ∧ wGini.degree_gini < 1 :=
  ⟨⟨by decide, by decide⟩, (claim_C8 wGini (by decide) (by decide)).2⟩

/-! ### Lemmas for the Feature-and-Label Builder -/

theorem filter_eq_singleton_of_nodup (df : List (ℕ × ℕ)) (hdf : df.Nodup) (p : ℕ × ℕ) :
    df.filter (fun q => q = p) = if p ∈ df then [p] else [] := by
  induction df with
  | nil => simp
  | cons a t ih =>
    rcases List.nodup_cons.1 hdf with ⟨hat, ht⟩
    rw [List.filter_cons]
    by_cases hap : a = p
    · subst hap
      have hnt : t.filter (fun q => q = a) = [] :=
        List.filter_eq_nil_iff.2 (fun q hq => by
          simp only [decide_eq_true_eq]
          exact fun h => hat (h ▸ hq))
      simp [hnt, ih ht]
    · have hmem : p ∈ a :: t ↔ p ∈ t := by
        rw [List.mem_cons]
        constructor
        · rintro (h | h)
          · exact absurd h.symm hap
          · exact h
        · exact Or.inr
      simp only [decide_eq_true_eq, hap, if_false, ih ht, hmem]

theorem leftMergeLink_nodup_eq (df : List (ℕ × ℕ)) (hdf : df.Nodup) :
    ∀ (cands : List (ℕ × ℕ)),
    leftMergeLink cands df = cands.map (fun p => ⟨p.1, p.2, decide (p ∈ df)⟩) := by
  intro cands
  induction cands with
  | nil => rfl
  | cons p cs ih =>
    simp only [leftMergeLink, List.flatMap_cons, List.map_cons] at ih ⊢
    rw [filter_eq_singleton_of_nodup df hdf p]
    by_cases hp : p ∈ df
    · simp only [hp, if_true, decide_eq_true hp]
      simpa using ih
    · simp only [hp, if_false, decide_eq_false hp]
      simpa using ih

/-- Claim C3: on an edge table of distinct `source < target` pairs,
`add_negative_examples` returns exactly `C(n, 2)` rows for `n` distinct
nodes — one per unordered pair, `source < target`, no duplicate keys —
with `link` true exactly on the observed pairs. -/
theorem claim_C3 (df : List (ℕ × ℕ)) (hdf : df.Nodup) :
    (add_negative_examples df).length
        = ((df.map Prod.fst ++ df.map Prod.snd).toFinset.card).choose 2
      ∧ ((add_negative_examples df).map (fun row => (row.source, row.target))).Nodup
      ∧ (∀ row ∈ add_negative_examples df, row.source < row.target)
      ∧ (∀ row ∈ add_negative_examples df, (row.link = true ↔ (row.source, row.target) ∈ df))
      ∧ (∀ u v, u ∈ df.map Prod.fst ++ df.map Prod.snd →
          v ∈ df.map Prod.fst ++ df.map Prod.snd → u < v →
          ∃ row ∈ add_negative_examples df, row.source = u ∧ row.target = v) := by
  have hrw : add_negative_examples df
      = (candidatePairs (npUnique (df.map Prod.fst ++ df.map Prod.snd))).map
          (fun p => ⟨p.1, p.2, decide (p ∈ df)⟩) := by
    rw [add_negative_examples, leftMergeLink_nodup_eq df hdf]
  refine ⟨?_, ?_, ?_, ?_, ?_⟩
  · rw [hrw, List.length_map,
      length_candidatePairs_sorted (sorted_lt_npUnique (df.map Prod.fst ++ df.map Prod.snd)),
      length_npUnique]
  · rw [hrw, List.map_map]
    have : ((fun row => (row.source, row.target))
        ∘ (fun p : ℕ × ℕ => (⟨p.1, p.2, decide (p ∈ df)⟩ : LabeledRow))) = id := by
      funext p
      rfl
    rw [this, List.map_id]
    exact nodup_candidatePairs (nodup_npUnique _)
  · intro row hrow
    rw [hrw] at hrow
    rcases List.mem_map.1 hrow with ⟨p, hp, rfl⟩
    obtain ⟨u, v⟩ := p
    exact (mem_candidatePairs.1 hp).2.2
  · intro row hrow
    rw [hrw] at hrow
    rcases List.mem_map.1 hrow with ⟨p, hp, rfl⟩
    simp [decide_eq_true_eq]
  · intro u v hu hv huv
    refine ⟨⟨u, v, decide ((u, v) ∈ df)⟩, ?_, rfl, rfl⟩
    rw [hrw]
    exact List.mem_map.2 ⟨(u, v),
      mem_candidatePairs.2 ⟨mem_npUnique.2 hu, mem_npUnique.2 hv, huv⟩, rfl⟩

/-- Witness for C3 at the two-edge table `[(1,2), (1,3)]`. -/
theorem claim_C3_witness :
    ([((1 : ℕ), (2 : ℕ)), (1, 3)] : List (ℕ × ℕ)).Nodup
      ∧ (add_negative_examples [(1, 2), (1, 3)]).length = 3 :=
  ⟨by decide, by
    have h := (claim_C3 [(1, 2), (1, 3)] (by decide)).1
    rw [h]
    decide⟩

/-! ### Lemmas about the rewiring machinery -/

theorem step_eq_ok (pr : NXGraph → ℕ → ℚ) (oracle : List (FeatureVec × Bool) → FeatureVec → ℚ)
    (s : SimState) (r : ℕ) (kept : List (ℕ × ℕ)) (b : Bool)
    (h : constantLabels (prep_data pr s).train_df = false) :
    step pr oracle s r kept b = .ok (stepResult pr oracle s r kept) := by
  rw [step, train_model, sk_fit, h]
  rfl

theorem step_ok_inv (pr : NXGraph → ℕ → ℚ) (oracle : List (FeatureVec × Bool) → FeatureVec → ℚ)
    (s : SimState) (r : ℕ) (kept : List (ℕ × ℕ)) (b : Bool) (u : SimState)
    (h : step pr oracle s r kept b = .ok u) :
    u = stepResult pr oracle s r kept
      ∧ constantLabels (prep_data pr s).train_df = false := by
  by_cases hc : constantLabels (prep_data pr s).train_df = true
  · rw [step, train_model, sk_fit, hc] at h
    exact absurd h (by simp [Except.map])
  · have hc' : constantLabels (prep_data pr s).train_df = false :=
      Bool.not_eq_true _ ▸ (Bool.eq_false_iff.2 hc)
    rw [step_eq_ok pr oracle s r kept b hc'] at h
    exact ⟨(Except.ok.inj h).symm, hc'⟩

theorem filter_map_pair (g : (ℕ × ℕ) → ℚ) (edges : List (ℕ × ℕ)) : ∀ (l : List (ℕ × ℕ)),
    (l.map (fun p => (p, g p))).filter (fun q => ¬ q.1 ∈ edges)
      = (l.filter (fun p => ¬ p ∈ edges)).map (fun p => (p, g p)) := by
  intro l
  induction l with
  | nil => rfl
  | cons a t ih =>
    by_cases h : a ∈ edges <;> simp [List.filter_cons, h] at ih ⊢ <;> simp [ih]

theorem rel_take_drop_of_score_sorted {β : Type} (f : β → ℚ) (l : List β) (k : ℕ)
    {x y : β} (hx : x ∈ (List.insertionSort (fun a b => f b ≤ f a) l).take k)
    (hy : y ∈ (List.insertionSort (fun a b => f b ≤ f a) l).drop k) :
    f y ≤ f x := by
  haveI h1 : IsTotal β (fun a b => f b ≤ f a) := ⟨fun a b => le_total (f b) (f a)⟩
  haveI h2 : IsTrans β (fun a b => f b ≤ f a) := ⟨fun a b c hab hbc => le_trans hbc hab⟩
  exact (List.sorted_insertionSort _ l).rel_of_mem_take_of_mem_drop hx hy

theorem get_predicted_edges_spec (pr : NXGraph → ℕ → ℚ) (s : SimState) (r : ℕ) :
    (get_predicted_edges pr s r).length
        = min r (availableNonEdges s.node_list s.edge_df)
      ∧ (∀ p ∈ get_predicted_edges pr s r,
          p ∈ candidatePairs s.node_list ∧ ¬ p ∈ s.edge_df)
      ∧ (∀ p ∈ get_predicted_edges pr s r, ∀ q, q ∈ candidatePairs s.node_list →
          ¬ q ∈ s.edge_df → ¬ q ∈ get_predicted_edges pr s r →
          edgeScore pr s.model s.G s.comm_dict q
            ≤ edgeScore pr s.model s.G s.comm_dict p) := by
  have hrem : (((candidatePairs s.node_list).map
        (fun p => (p, edgeScore pr s.model s.G s.comm_dict p))).filter
          (fun q => ¬ q.1 ∈ s.edge_df))
      = ((candidatePairs s.node_list).filter (fun p => ¬ p ∈ s.edge_df)).map
          (fun p => (p, edgeScore pr s.model s.G s.comm_dict p)) :=
    filter_map_pair _ _ _
  refine ⟨?_, ?_, ?_⟩
  · simp only [get_predicted_edges]
    rw [List.length_map, List.length_take, List.length_insertionSort, hrem,
      List.length_map]
    rfl
  · intro p hp
    simp only [get_predicted_edges] at hp
    rcases List.mem_map.1 hp with ⟨q, hq, rfl⟩
    have hq2 : q ∈ List.insertionSort (fun a b => b.2 ≤ a.2)
        ((((candidatePairs s.node_list).map
          (fun p => (p, edgeScore pr s.model s.G s.comm_dict p))).filter
            (fun q => ¬ q.1 ∈ s.edge_df))) := (List.take_sublist _ _).subset hq
    rw [List.mem_insertionSort, hrem] at hq2
    rcases List.mem_map.1 hq2 with ⟨p', hp', rfl⟩
    rcases List.mem_filter.1 hp' with ⟨hp'1, hp'2⟩
    exact ⟨hp'1, by simpa using hp'2⟩
  · intro p hp q hqc hqe hqr
    simp only [get_predicted_edges] at hp hqr
    rcases List.mem_map.1 hp with ⟨pq, hpq, rfl⟩
    have hq2 : (q, edgeScore pr s.model s.G s.comm_dict q) ∈ List.insertionSort
        (fun a b => b.2 ≤ a.2)
        ((((candidatePairs s.node_list).map
          (fun p => (p, edgeScore pr s.model s.G s.comm_dict p))).filter
            (fun q => ¬ q.1 ∈ s.edge_df))) := by
      rw [List.mem_insertionSort, hrem]
      exact List.mem_map.2 ⟨q, List.mem_filter.2 ⟨hqc, by simpa using hqe⟩, rfl⟩
    rw [← List.take_append_drop r (List.insertionSort (fun a b => b.2 ≤ a.2)
      ((((candidatePairs s.node_list).map
        (fun p => (p, edgeScore pr s.model s.G s.comm_dict p))).filter
          (fun q => ¬ q.1 ∈ s.edge_df))))] at hq2
    rcases List.mem_append.1 hq2 with hqin | hqdrop
    · exact absurd (List.mem_map.2 ⟨_, hqin, rfl⟩) hqr
    · have hpq2 : pq.2 = edgeScore pr s.model s.G s.comm_dict pq.1 := by
        have hmem : pq ∈ List.insertionSort (fun a b => b.2 ≤ a.2)
            ((((candidatePairs s.node_list).map
              (fun p => (p, edgeScore pr s.model s.G s.comm_dict p))).filter
                (fun q => ¬ q.1 ∈ s.edge_df))) := (List.take_sublist _ _).subset hpq
        rw [List.mem_insertionSort, hrem] at hmem
        rcases List.mem_map.1 hmem with ⟨p', -, heq⟩
        rw [← heq]
      have hdom := rel_take_drop_of_score_sorted (fun a : (ℕ × ℕ) × ℚ => a.2) _ r hpq hqdrop
      have hdom' : edgeScore pr s.model s.G s.comm_dict q ≤ pq.2 := hdom
      rw [hpq2] at hdom'
      exact hdom'

theorem get_predicted_edges_nodup (pr : NXGraph → ℕ → ℚ) (s : SimState) (r : ℕ)
    (hn : s.node_list.Nodup) : (get_predicted_edges pr s r).Nodup := by
  have hpairs : (candidatePairs s.node_list).Nodup := nodup_candidatePairs hn
  have hfst : ((((candidatePairs s.node_list).map
      (fun p => (p, edgeScore pr s.model s.G s.comm_dict p))).filter
        (fun q => ¬ q.1 ∈ s.edge_df)).map Prod.fst).Nodup := by
    rw [filter_map_pair, List.map_map]
    have : (Prod.fst ∘ fun p : ℕ × ℕ =>
        (p, edgeScore pr s.model s.G s.comm_dict p)) = id := rfl
    rw [this, List.map_id]
    exact hpairs.filter _
  have hperm : ((List.insertionSort (fun a b => b.2 ≤ a.2)
      (((candidatePairs s.node_list).map
        (fun p => (p, edgeScore pr s.model s.G s.comm_dict p))).filter
          (fun q => ¬ q.1 ∈ s.edge_df))).map Prod.fst).Nodup :=
    ((List.perm_insertionSort _ _).map Prod.fst).nodup_iff.2 hfst
  simp only [get_predicted_edges]
  exact hperm.sublist ((List.take_sublist _ _).map Prod.fst)

theorem stepResult_edge_df (pr : NXGraph → ℕ → ℚ)
    (oracle : List (FeatureVec × Bool) → FeatureVec → ℚ)
    (s : SimState) (r : ℕ) (kept : List (ℕ × ℕ)) :
    (stepResult pr oracle s r kept).edge_df = kept ++ addedEdges pr oracle s r kept := rfl

theorem stepResult_node_list (pr : NXGraph → ℕ → ℚ)
    (oracle : List (FeatureVec × Bool) → FeatureVec → ℚ)
    (s : SimState) (r : ℕ) (kept : List (ℕ × ℕ)) :
    (stepResult pr oracle s r kept).node_list = s.node_list := rfl

theorem stepResult_comms (pr : NXGraph → ℕ → ℚ)
    (oracle : List (FeatureVec × Bool) → FeatureVec → ℚ)
    (s : SimState) (r : ℕ) (kept : List (ℕ × ℕ)) :
    (stepResult pr oracle s r kept).comms = s.comms ∧
    (stepResult pr oracle s r kept).comm_dict = s.comm_dict := ⟨rfl, rfl⟩

theorem mem_addNodesFrom {G : NXGraph} {l : List ℕ} {v : ℕ} (hv : v ∈ l) :
    v ∈ (G.addNodesFrom l).nodes := by
  rw [NXGraph.addNodesFrom]
  by_cases h : v ∈ G.nodes
  · exact List.mem_append_left _ h
  · exact List.mem_append_right _
      (List.mem_filter.2 ⟨mem_firstDedup.2 hv, by simpa using h⟩)

theorem runSteps_inv (pr : NXGraph → ℕ → ℚ)
    (oracle : List (FeatureVec × Bool) → FeatureVec → ℚ) :
    ∀ (moves : List (ℕ × List (ℕ × ℕ) × Bool)) (s t : SimState),
    runSteps pr oracle s moves = .ok t →
    t.node_list = s.node_list ∧ t.comms = s.comms ∧ t.comm_dict = s.comm_dict
      ∧ (s.node_list ⊆ s.G.nodes → s.node_list ⊆ t.G.nodes) := by
  intro moves
  induction moves with
  | nil =>
    intro s t h
    simp only [runSteps] at h
    cases h
    exact ⟨rfl, rfl, rfl, fun hsub => hsub⟩
  | cons mv rest ih =>
    obtain ⟨r, kept, b⟩ := mv
    intro s t h
    simp only [runSteps] at h
    cases hstep : step pr oracle s r kept b with
    | error e =>
      rw [hstep] at h
      simp [Except.bind] at h
    | ok u =>
      rw [hstep] at h
      simp only [Except.bind] at h
      obtain ⟨hu, -⟩ := step_ok_inv pr oracle s r kept b u hstep
      subst hu
      obtain ⟨h1, h2, h3, h4⟩ := ih _ t h
      refine ⟨h1, h2, h3, fun _ => ?_⟩
      intro v hv
      exact h4 (fun w hw => mem_addNodesFrom hw) hv

theorem constantLabels_of_const (rows : List (FeatureVec × Bool))
    (h : ∀ x ∈ rows, ∀ y ∈ rows, x.2 = y.2) : constantLabels rows = true := by
  cases rows with
  | nil => rfl
  | cons hd tl =>
    show ((tl.map Prod.snd).all (fun c => c = hd.2)) = true
    rw [List.all_eq_true]
    intro c hc
    rcases List.mem_map.1 hc with ⟨x, hx, rfl⟩
    exact decide_eq_true
      (h x (List.mem_cons_of_mem hd hx) hd (List.mem_cons_self hd tl))

/-! ### The claims -/

/-- Claim C1 (counterexample): at `cState` with removal count `7` and no
retained rows, only `6` non-edge candidates are available after removal,
yet `step` returns successfully (no `InsufficientCandidates` condition)
with only `6` edges — it silently returns fewer than `r` new edges. -/
theorem claim_C1_counterexample :
    availableNonEdges cState.node_list [] < 7
      ∧ (step prZero oracleZero cState 7 [] true).toOption.map (fun u => u.edge_df.length)
          = some 6 := by
  constructor
  · decide
  · decide

/-- Claim C1 (amended): when `r` exceeds the number of available non-edge
pairs after removal, the step does **not** fail: it silently adds only the
available candidates (`pandas.head` truncates), so the step succeeds and
the new edge table has `kept + min r available` rows. -/
theorem claim_C1_amended (pr : NXGraph → ℕ → ℚ)
    (oracle : List (FeatureVec × Bool) → FeatureVec → ℚ)
    (s : SimState) (r : ℕ) (kept : List (ℕ × ℕ)) (b : Bool)
    (hfit : constantLabels (prep_data pr s).train_df = false) :
    step pr oracle s r kept b = .ok (stepResult pr oracle s r kept)
      ∧ (addedEdges pr oracle s r kept).length
          = min r (availableNonEdges s.node_list kept)
      ∧ (stepResult pr oracle s r kept).edge_df.length
          = kept.length + min r (availableNonEdges s.node_list kept) := by
  have h2 : (addedEdges pr oracle s r kept).length
      = min r (availableNonEdges s.node_list kept) :=
    (get_predicted_edges_spec pr { postTrain pr oracle s with edge_df := kept } r).1
  refine ⟨step_eq_ok pr oracle s r kept b hfit, h2, ?_⟩
  rw [stepResult_edge_df, List.length_append, h2]

/-- Witness for the amended C1 at the duplicate-row table `cDf`. -/
theorem claim_C1_amended_witness :
    constantLabels (prep_data prZero cState).train_df = false
      ∧ (stepResult prZero oracleZero cState 7 []).edge_df.length = 0 + min 7 6 := by
  refine ⟨by decide, ?_⟩
  have h := (claim_C1_amended prZero oracleZero cState 7 [] true (by decide)).2.2
  rw [h]
  decide

/-- Claim C2: with `r ≤ m` edges removed (the retained rows having length
`m - r`) and at least `r` non-edge candidates available, a step succeeds
and produces an edge table of exactly `m` rows: the `m - r` retained rows
plus exactly `r` added predicted pairs. -/
theorem claim_C2 (pr : NXGraph → ℕ → ℚ)
    (oracle : List (FeatureVec × Bool) → FeatureVec → ℚ)
    (s : SimState) (r : ℕ) (kept : List (ℕ × ℕ)) (b : Bool)
    (hk : kept.length = s.edge_df.length - r)
    (hr : r ≤ s.edge_df.length)
    (ha : r ≤ availableNonEdges s.node_list kept)
    (hfit : constantLabels (prep_data pr s).train_df = false) :
    step pr oracle s r kept b = .ok (stepResult pr oracle s r kept)
      ∧ (stepResult pr oracle s r kept).edge_df = kept ++ addedEdges pr oracle s r kept
      ∧ (addedEdges pr oracle s r kept).length = r
      ∧ (stepResult pr oracle s r kept).edge_df.length = s.edge_df.length := by
  have h2 : (addedEdges pr oracle s r kept).length
      = min r (availableNonEdges s.node_list kept) :=
    (get_predicted_edges_spec pr { postTrain pr oracle s with edge_df := kept } r).1
  have h3 : (addedEdges pr oracle s r kept).length = r := by
    rw [h2]
    exact Nat.min_eq_left ha
  refine ⟨step_eq_ok pr oracle s r kept b hfit, stepResult_edge_df pr oracle s r kept, h3, ?_⟩
  rw [stepResult_edge_df, List.length_append, h3, hk]
  omega

/-- Witness for C2 at `wState` with `r = 1`. -/
theorem claim_C2_witness :
    ([((1 : ℕ), (2 : ℕ))] : List (ℕ × ℕ)).length = wState.edge_df.length - 1
      ∧ 1 ≤ wState.edge_df.length
      ∧ 1 ≤ availableNonEdges wState.node_list [(1, 2)]
      ∧ constantLabels (prep_data prZero wState).train_df = false
      ∧ (stepResult prZero oracleZero wState 1 [(1, 2)]).edge_df.length
          = wState.edge_df.length := by
  refine ⟨by decide, by decide, by decide, by decide, ?_⟩
  exact (claim_C2 prZero oracleZero wState 1 [(1, 2)] true
    (by decide) (by decide) (by decide) (by decide)).2.2.2

/-- Claim C4: the candidate table covers every `source < target` pair over
the fixed node universe; within a step the added pairs are the predictions
of the post-removal state, whose reference graph is the current snapshot
`s.G` and whose partition is the stored `s.comm_dict`; pairs still present
after removal are excluded; and (given enough candidates) exactly `r`
pairs are returned, each scoring at least as high as every excluded
remaining candidate. -/
theorem claim_C4 (pr : NXGraph → ℕ → ℚ)
    (oracle : List (FeatureVec × Bool) → FeatureVec → ℚ)
    (s : SimState) (r : ℕ) (kept : List (ℕ × ℕ)) :
    (∀ u v, u ∈ s.node_list → v ∈ s.node_list → u < v → (u, v) ∈ candidatePairs s.node_list)
      ∧ addedEdges pr oracle s r kept
          = get_predicted_edges pr { postTrain pr oracle s with edge_df := kept } r
      ∧ ({ postTrain pr oracle s with edge_df := kept } : SimState).G = s.G
      ∧ ({ postTrain pr oracle s with edge_df := kept } : SimState).comm_dict = s.comm_dict
      ∧ ({ postTrain pr oracle s with edge_df := kept } : SimState).model
          = oracle (prep_data pr s).train_df
      ∧ (∀ p ∈ addedEdges pr oracle s r kept,
          p ∈ candidatePairs s.node_list ∧ ¬ p ∈ kept)
      ∧ (r ≤ availableNonEdges s.node_list kept →
          (addedEdges pr oracle s r kept).length = r)
      ∧ (∀ p ∈ addedEdges pr oracle s r kept, ∀ q, q ∈ candidatePairs s.node_list →
          ¬ q ∈ kept → ¬ q ∈ addedEdges pr oracle s r kept →
          edgeScore pr (oracle (prep_data pr s).train_df) s.G s.comm_dict q
            ≤ edgeScore pr (oracle (prep_data pr s).train_df) s.G s.comm_dict p) := by
  have hspec := get_predicted_edges_spec pr { postTrain pr oracle s with edge_df := kept } r
  have h2 : (addedEdges pr oracle s r kept).length
      = min r (availableNonEdges s.node_list kept) := hspec.1
  refine ⟨?_, rfl, rfl, rfl, rfl, hspec.2.1, ?_, hspec.2.2⟩
  · intro u v hu hv huv
    exact mem_candidatePairs.2 ⟨hu, hv, huv⟩
  · intro h
    rw [h2]
    exact Nat.min_eq_left h

/-- Witness for C4 at `wState` with `r = 1` retaining `[(1,2)]`. -/
theorem claim_C4_witness :
    1 ≤ availableNonEdges wState.node_list [(1, 2)]
      ∧ (addedEdges prZero oracleZero wState 1 [(1, 2)]).length = 1 :=
  ⟨by decide, (claim_C4 prZero oracleZero wState 1 [(1, 2)]).2.2.2.2.2.2.1 (by decide)⟩

/-- Claim C5: the community partition is computed once at construction
(`louvain_communities` on the initial graph) and is not modified by
`prep_data`, `train_model`, `update_edges`, `step`, or any run of steps;
`modularity()` always scores the current snapshot against the stored —
hence original — partition. -/
theorem claim_C5 (pr : NXGraph → ℕ → ℚ) (nxLouvain : NXGraph → List (List ℕ))
    (oracle : List (FeatureVec × Bool) → FeatureVec → ℚ)
    (nxModularity : NXGraph → List (List ℕ) → ℚ)
    (df : List (ℕ × ℕ)) (s : SimState) (r : ℕ) (kept : List (ℕ × ℕ)) (b : Bool)
    (moves : List (ℕ × List (ℕ × ℕ) × Bool)) (t : SimState)
    (hrun : runSteps pr oracle s moves = .ok t) :
    (LPS_init nxLouvain df).comm_dict
        = (louvain_communities nxLouvain (from_pandas_edgelist df)).1
      ∧ (LPS_init nxLouvain df).comms
          = (louvain_communities nxLouvain (from_pandas_edgelist df)).2
      ∧ (prep_data pr s).comm_dict = s.comm_dict
      ∧ (prep_data pr s).comms = s.comms
      ∧ (∀ u, train_model oracle s = .ok u → u.comm_dict = s.comm_dict ∧ u.comms = s.comms)
      ∧ (update_edges pr s r kept).comm_dict = s.comm_dict
      ∧ (update_edges pr s r kept).comms = s.comms
      ∧ (∀ u, step pr oracle s r kept b = .ok u →
          u.comm_dict = s.comm_dict ∧ u.comms = s.comms)
      ∧ t.comms = s.comms ∧ t.comm_dict = s.comm_dict
      ∧ modularity nxModularity t = nxModularity t.G s.comms := by
  obtain ⟨-, hc2, hc3, -⟩ := runSteps_inv pr oracle moves s t hrun
  refine ⟨rfl, rfl, rfl, rfl, ?_, rfl, rfl, ?_, hc2, hc3, ?_⟩
  · intro u hu
    by_cases hc : constantLabels s.train_df = true
    · rw [train_model, sk_fit, hc] at hu
      exact absurd hu (by simp [Except.map])
    · have hc' : constantLabels s.train_df = false := Bool.eq_false_iff.2 hc
      rw [train_model, sk_fit, hc'] at hu
      have : ({ s with model := oracle s.train_df } : SimState) = u := by
        exact Except.ok.inj hu
      rw [← this]
      exact ⟨rfl, rfl⟩
  · intro u hu
    obtain ⟨rfl, -⟩ := step_ok_inv pr oracle s r kept b u hu
    exact ⟨(stepResult_comms pr oracle s r kept).2, (stepResult_comms pr oracle s r kept).1⟩
  · rw [modularity, hc2]

/-- Witness for C5: one successful step from `wState`. -/
theorem claim_C5_witness :
    runSteps prZero oracleZero wState [(1, [(1, 2)], true)]
        = .ok (stepResult prZero oracleZero wState 1 [(1, 2)])
      ∧ (stepResult prZero oracleZero wState 1 [(1, 2)]).comms = wState.comms := by
  have hrun : runSteps prZero oracleZero wState [(1, [(1, 2)], true)]
      = .ok (stepResult prZero oracleZero wState 1 [(1, 2)]) := by
    simp only [runSteps, step_eq_ok prZero oracleZero wState 1 [(1, 2)] true (by decide)]
    rfl
  exact ⟨hrun, (claim_C5 prZero louvainNil oracleZero modZero wDf wState 1 [(1, 2)] true
    [(1, [(1, 2)], true)] _ hrun).2.2.2.2.2.2.2.2.1⟩

/-- Claim C6: every node of the initial node universe is still a node of the
graph snapshot after any (successful) sequence of `step` calls — isolated
nodes are re-added by `G.add_nodes_from(node_list)` and never dropped. -/
theorem claim_C6 (pr : NXGraph → ℕ → ℚ) (nxLouvain : NXGraph → List (List ℕ))
    (oracle : List (FeatureVec × Bool) → FeatureVec → ℚ)
    (df : List (ℕ × ℕ)) (moves : List (ℕ × List (ℕ × ℕ) × Bool)) (t : SimState)
    (hrun : runSteps pr oracle (LPS_init nxLouvain df) moves = .ok t) :
    ∀ v ∈ (LPS_init nxLouvain df).node_list, v ∈ t.G.nodes := by
  obtain ⟨-, -, -, h4⟩ := runSteps_inv pr oracle moves _ t hrun
  exact fun v hv => h4 (fun w hw => hw) hv

/-- Witness for C6: after one step from `wState`, node 3 (which loses its
only edge when `[(1,2)]` is retained, unless re-predicted) is still
present. -/
theorem claim_C6_witness :
    runSteps prZero oracleZero wState [(1, [(1, 2)], true)]
        = .ok (stepResult prZero oracleZero wState 1 [(1, 2)])
      ∧ (3 : ℕ) ∈ (stepResult prZero oracleZero wState 1 [(1, 2)]).G.nodes := by
  have hrun : runSteps prZero oracleZero wState [(1, [(1, 2)], true)]
      = .ok (stepResult prZero oracleZero wState 1 [(1, 2)]) := by
    simp only [runSteps, step_eq_ok prZero oracleZero wState 1 [(1, 2)] true (by decide)]
    rfl
  refine ⟨hrun, ?_⟩
  have h := claim_C6 prZero louvainNil oracleZero wDf [(1, [(1, 2)], true)] _ hrun
  exact h 3 (by decide)

/-- Claim C7: fitting the Scorer on a table whose label column is constant —
in particular `false` on every row — yields the fatal `DegenerateLabelSet`
error instead of a model. -/
theorem claim_C7 (oracle : List (FeatureVec × Bool) → FeatureVec → ℚ) (s : SimState)
    (hconst : ∀ x ∈ s.train_df, ∀ y ∈ s.train_df, x.2 = y.2) :
    train_model oracle s = .error .DegenerateLabelSet := by
  rw [train_model, sk_fit, constantLabels_of_const s.train_df hconst]
  rfl

/-- Witness for C7 at the all-`false` table of `wAllFalse`. -/
theorem claim_C7_witness :
    (∀ x ∈ wAllFalse.train_df, x.2 = false)
      ∧ train_model oracleZero wAllFalse = .error .DegenerateLabelSet :=
  ⟨by decide, claim_C7 oracleZero wAllFalse (by decide)⟩

/-- Claim C9: a step maps an edge table of distinct `source < target` pairs
to another edge table of distinct `source < target` pairs — the snapshot
stays a simple graph with no self-loops and no multi-edges. -/
theorem claim_C9 (pr : NXGraph → ℕ → ℚ)
    (oracle : List (FeatureVec × Bool) → FeatureVec → ℚ)
    (s : SimState) (r : ℕ) (kept : List (ℕ × ℕ)) (b : Bool)
    (hnodes : s.node_list.Nodup)
    (hnd : s.edge_df.Nodup)
    (hst : ∀ p ∈ s.edge_df, p.1 < p.2)
    (hsub : kept.Subperm s.edge_df)
    (hfit : constantLabels (prep_data pr s).train_df = false) :
    step pr oracle s r kept b = .ok (stepResult pr oracle s r kept)
      ∧ (stepResult pr oracle s r kept).edge_df.Nodup
      ∧ (∀ p ∈ (stepResult pr oracle s r kept).edge_df, p.1 < p.2)
      ∧ (stepResult pr oracle s r kept).node_list = s.node_list
      ∧ (stepResult pr oracle s r kept).node_list.Nodup := by
  have hkept_nd : kept.Nodup := by
    obtain ⟨l₀, hperm, hsl⟩ := hsub
    exact hperm.nodup (hnd.sublist hsl)
  have hkept_sub : ∀ p ∈ kept, p ∈ s.edge_df := fun p hp => hsub.subset hp
  have hadd_nd : (addedEdges pr oracle s r kept).Nodup :=
    get_predicted_edges_nodup pr { postTrain pr oracle s with edge_df := kept } r hnodes
  have hspec := get_predicted_edges_spec pr { postTrain pr oracle s with edge_df := kept } r
  have hadd_mem : ∀ p ∈ addedEdges pr oracle s r kept,
      p ∈ candidatePairs s.node_list ∧ ¬ p ∈ kept := hspec.2.1
  refine ⟨step_eq_ok pr oracle s r kept b hfit, ?_, ?_, rfl, hnodes⟩
  · rw [stepResult_edge_df]
    refine hkept_nd.append hadd_nd ?_
    intro p hp hpadd
    exact (hadd_mem p hpadd).2 hp
  · rw [stepResult_edge_df]
    intro p hp
    rcases List.mem_append.1 hp with h | h
    · exact hst p (hkept_sub p h)
    · obtain ⟨u, v⟩ := p
      exact (mem_candidatePairs.1 (hadd_mem _ h).1).2.2

/-- Witness for C9 at `wState` with one removal. -/
theorem claim_C9_witness :
    wState.node_list.Nodup ∧ wState.edge_df.Nodup
      ∧ (∀ p ∈ wState.edge_df, p.1 < p.2)
      ∧ ([((3 : ℕ), (4 : ℕ))] : List (ℕ × ℕ)).Subperm wState.edge_df
      ∧ (stepResult prZero oracleZero wState 1 [(3, 4)]).edge_df.Nodup := by
  have hsub : ([((3 : ℕ), (4 : ℕ))] : List (ℕ × ℕ)).Subperm wState.edge_df := by
    refine ⟨[(3, 4)], List.Perm.refl _, ?_⟩
    show List.Sublist [((3 : ℕ), (4 : ℕ))] [(1, 2), (3, 4)]
    exact List.Sublist.cons _ (List.Sublist.refl _)
  refine ⟨by decide, by decide, by decide, hsub, ?_⟩
  exact (claim_C9 prZero oracleZero wState 1 [(3, 4)] true
    (by decide) (by decide) (by decide) hsub (by decide)).2.1

/-- Claim C10: the `train` flag of `step` has no influence — the two calls
are literally the same computation — and on success the stored model is
always the classifier refit on the freshly prepared table. -/
theorem claim_C10 (pr : NXGraph → ℕ → ℚ)
    (oracle : List (FeatureVec × Bool) → FeatureVec → ℚ)
    (s : SimState) (r : ℕ) (kept : List (ℕ × ℕ)) (b₁ b₂ : Bool) :
    step pr oracle s r kept b₁ = step pr oracle s r kept b₂
      ∧ (constantLabels (prep_data pr s).train_df = false →
          (step pr oracle s r kept b₁).toOption.map (fun u => u.model)
            = some (oracle (prep_data pr s).train_df)) := by
  refine ⟨rfl, fun h => ?_⟩
  rw [step_eq_ok pr oracle s r kept b₁ h]
  rfl

/-- Witness for C10 at `wState`. -/
theorem claim_C10_witness :
    constantLabels (prep_data prZero wState).train_df = false
      ∧ (step prZero oracleZero wState 1 [(1, 2)] true).toOption.map (fun u => u.model)
          = some (oracleZero (prep_data prZero wState).train_df) :=
  ⟨by decide, (claim_C10 prZero oracleZero wState 1 [(1, 2)] true false).2 (by decide)⟩

end IntroNetworks
